import Mathlib

/-!
Shallow embedding of the order book merge engine from src/order_book.rs.

The Rust code represents prices and amounts with rust_decimal exact
decimals; we model them as rationals. The per-source snapshot map is a
HashMap with unspecified iteration order; we model it as an association
list whose insert replaces the value of an existing key in place. Rust
Vec::sort_by is a stable sort; the output of a stable sort is uniquely
determined by the comparator and the input order, so we model it with
List.insertionSort from Mathlib, which is stable.
-/

deriving instance DecidableEq for Except

namespace OrderBookModel

/-- Prices and amounts: exact decimals, modelled as rationals. -/
abbrev Decimal := ℚ

/-- Modelled from the spec (the Decimal Quantity Model is realised by the
external rust_decimal crate, whose code is not under src): round to the
nearest integer, ties to the even neighbour, which is the documented
default strategy (MidpointNearestEven, bankers rounding) of
rust_decimal round and round_dp. -/
def roundHalfEven (q : ℚ) : ℤ :=
  if q - ⌊q⌋ < 1/2 then ⌊q⌋
  else if 1/2 < q - ⌊q⌋ then ⌊q⌋ + 1
  else if ⌊q⌋ % 2 = 0 then ⌊q⌋ else ⌊q⌋ + 1

/-- Modelled from the spec and the rust_decimal documentation: round_dp
rounds to dp fractional digits using the MidpointNearestEven strategy. -/
def roundDp (q : ℚ) (dp : ℕ) : ℚ :=
  (roundHalfEven (q * 10 ^ dp) : ℚ) / 10 ^ dp

/-- Value of a list of decimal digit characters read left to right. -/
def natOfDigits (cs : List Char) : ℕ :=
  cs.foldl (fun a c => a * 10 + (c.toNat - 48)) 0

/-- Modelled from the spec: the Decimal Quantity Model parse operation
(rust_decimal FromStr, an external dependency not under src). Parses an
unsigned decimal numeral: digits, optionally followed by a point and
more digits; fails on anything else. -/
def parseUnsigned (body : List Char) : Except String Decimal :=
  if body.takeWhile Char.isDigit = [] then .error "ParseError"
  else
    match body.dropWhile Char.isDigit with
    | [] => .ok (natOfDigits (body.takeWhile Char.isDigit) : ℚ)
    | '.' :: fr =>
        if fr ≠ [] ∧ fr.all Char.isDigit then
          .ok ((natOfDigits (body.takeWhile Char.isDigit) : ℚ) +
            (natOfDigits fr : ℚ) / 10 ^ fr.length)
        else .error "ParseError"
    | _ => .error "ParseError"

/-- Modelled from the spec: sign handling of the decimal parse on the
character list of the input. An optional leading sign is accepted, as
rust_decimal does. -/
def fromChars (cs : List Char) : Except String Decimal :=
  match cs with
  | [] => .error "ParseError"
  | c :: rest =>
      if c = '-' then (parseUnsigned rest).map (fun q => -q)
      else if c = '+' then parseUnsigned rest
      else parseUnsigned (c :: rest)

/-- Modelled from the spec: parse a textual decimal representation into
an exact value; fail with a parse error if the text is not a valid
decimal. -/
def Decimal.from_str (s : String) : Except String Decimal :=
  fromChars s.data

/-- src/order_book.rs, struct Bid. -/
structure Bid where
  price : Decimal
  amount : Decimal
deriving DecidableEq

/-- src/order_book.rs, struct Ask. -/
structure Ask where
  price : Decimal
  amount : Decimal
deriving DecidableEq

/-- src/order_book.rs, struct OrderBookUpdate. -/
structure OrderBookUpdate where
  exchange : String
  bids : List Bid
  asks : List Ask
deriving DecidableEq

/-- src/order_book.rs, struct ExchangeAsk. -/
structure ExchangeAsk where
  exchange : String
  price : Decimal
  amount : Decimal
deriving DecidableEq

/-- src/order_book.rs, struct ExchangeBid. -/
structure ExchangeBid where
  exchange : String
  price : Decimal
  amount : Decimal
deriving DecidableEq

/-- src/order_book.rs, struct UpdateResult. -/
structure UpdateResult where
  asks : List ExchangeAsk
  bids : List ExchangeBid
  spread : Option Decimal
deriving DecidableEq

/-- src/order_book.rs, UpdateResult::normalize (the in-place mutation is
modelled by returning the new value). -/
def UpdateResult.normalize (r : UpdateResult)
    (price_decimal_places amount_decimal_places spread_decimal_places : ℕ) :
    UpdateResult :=
  { asks := r.asks.map fun a =>
      { a with price := roundDp a.price price_decimal_places,
               amount := roundDp a.amount amount_decimal_places }
    bids := r.bids.map fun b =>
      { b with price := roundDp b.price price_decimal_places,
               amount := roundDp b.amount amount_decimal_places }
    spread := r.spread.map fun s => roundDp s spread_decimal_places }

/-- src/order_book.rs, struct MergedOrderBook. The HashMaps are modelled
as association lists; iteration order of a HashMap is unspecified, the
model iterates in the order of the association list. -/
structure MergedOrderBook where
  latest_bids : List (String × List Bid)
  latest_asks : List (String × List Ask)
  top_n : ℕ
deriving DecidableEq

/-- HashMap::insert: replace the value of an existing key in place,
otherwise append the new binding. -/
def insertSnap (k : String) (v : α) : List (String × α) → List (String × α)
  | [] => [(k, v)]
  | (k₂, v₂) :: l => if k₂ = k then (k, v) :: l else (k₂, v₂) :: insertSnap k v l

/-- HashMap lookup on the association list model. -/
def lookupSnap (k : String) : List (String × α) → Option α
  | [] => none
  | (k₂, v) :: l => if k₂ = k then some v else lookupSnap k l

/-- src/order_book.rs, MergedOrderBook::new. -/
def MergedOrderBook.new (top_n : ℕ) : MergedOrderBook :=
  { latest_bids := [], latest_asks := [], top_n := top_n }

/-- The closure tagging a Bid with its exchange in update_bids. -/
def ExchangeBid.of (exchange : String) (b : Bid) : ExchangeBid :=
  { exchange := exchange, price := b.price, amount := b.amount }

/-- The closure tagging an Ask with its exchange in update_asks. -/
def ExchangeAsk.of (exchange : String) (a : Ask) : ExchangeAsk :=
  { exchange := exchange, price := a.price, amount := a.amount }

/-- The loop of update_bids and update_asks building the concatenated
working list: per source, map the tagging closure over the stored list
and keep only the first top_n entries, then concatenate. -/
def workingList (tag : String → α → β) (store : List (String × List α)) (n : ℕ) :
    List β :=
  (store.map fun p => ((p.2.map (tag p.1)).take n)).flatten

/-- Comparator of update_bids: sort_by(|a, b| b.price.cmp(&a.price)),
descending by price. -/
def bidOrd (a b : ExchangeBid) : Prop := b.price ≤ a.price

/-- Comparator of update_asks: sort_by(|a, b| a.price.cmp(&b.price)),
ascending by price. -/
def askOrd (a b : ExchangeAsk) : Prop := a.price ≤ b.price

instance : DecidableRel bidOrd := fun a b => inferInstanceAs (Decidable (b.price ≤ a.price))

instance : DecidableRel askOrd := fun a b => inferInstanceAs (Decidable (a.price ≤ b.price))

instance : IsTotal ExchangeBid bidOrd := ⟨fun a b => le_total b.price a.price⟩

instance : IsTrans ExchangeBid bidOrd := ⟨fun _ _ _ h h₂ => le_trans h₂ h⟩

instance : IsTotal ExchangeAsk askOrd := ⟨fun a b => le_total a.price b.price⟩

instance : IsTrans ExchangeAsk askOrd := ⟨fun _ _ _ h h₂ => le_trans h h₂⟩

/-- src/order_book.rs, MergedOrderBook::update_bids. Returns the top
combined bids together with the new state. -/
def MergedOrderBook.update_bids (book : MergedOrderBook) (exchange : String)
    (bids : List Bid) : List ExchangeBid × MergedOrderBook :=
  let store := insertSnap exchange bids book.latest_bids
  let all_bids := workingList ExchangeBid.of store book.top_n
  ((all_bids.insertionSort bidOrd).take book.top_n,
   { book with latest_bids := store })

/-- src/order_book.rs, MergedOrderBook::update_asks. Returns the top
combined asks together with the new state. -/
def MergedOrderBook.update_asks (book : MergedOrderBook) (exchange : String)
    (asks : List Ask) : List ExchangeAsk × MergedOrderBook :=
  let store := insertSnap exchange asks book.latest_asks
  let all_asks := workingList ExchangeAsk.of store book.top_n
  ((all_asks.insertionSort askOrd).take book.top_n,
   { book with latest_asks := store })

/-- src/order_book.rs, MergedOrderBook::update. -/
def MergedOrderBook.update (book : MergedOrderBook) (u : OrderBookUpdate) :
    UpdateResult × MergedOrderBook :=
  let ra := book.update_asks u.exchange u.asks
  let rb := ra.2.update_bids u.exchange u.bids
  ({ asks := ra.1, bids := rb.1,
     spread := ra.1.head?.bind fun ask => rb.1.head?.map fun bid => ask.price - bid.price },
   rb.2)

/-- Driver for a sequence of updates, as performed by the consumer loop
in src/main.rs: each update is fed to the engine and each result is
collected. -/
def runUpdates (book : MergedOrderBook) : List OrderBookUpdate → List UpdateResult
  | [] => []
  | u :: us => (book.update u).1 :: runUpdates (book.update u).2 us

/-- collect::<Result<Vec<_>>> over a fallible map: stop at the first
error, otherwise return all results. -/
def mapExcept (f : α → Except ε β) : List α → Except ε (List β)
  | [] => .ok []
  | x :: l => do
      let y ← f x
      let ys ← mapExcept f l
      .ok (y :: ys)

/-- src/order_book.rs, the closure parsing one bid pair in parse_data. -/
def parseBid (p : String × String) : Except String Bid := do
  let price ← Decimal.from_str p.1
  let amount ← Decimal.from_str p.2
  .ok { price := price, amount := amount }

/-- src/order_book.rs, the closure parsing one ask pair in parse_data. -/
def parseAsk (p : String × String) : Except String Ask := do
  let price ← Decimal.from_str p.1
  let amount ← Decimal.from_str p.2
  .ok { price := price, amount := amount }

/-- src/order_book.rs, parse_data. -/
def parse_data (bids asks : List (String × String)) (exchange : String) :
    Except String OrderBookUpdate := do
  let bs ← mapExcept parseBid bids
  let ak ← mapExcept parseAsk asks
  .ok { exchange := exchange, bids := bs, asks := ak }

/-! ### Association list model of the HashMap: helper lemmas -/

/-- Distinct keys, the invariant a HashMap maintains. -/
def nodupKeys (l : List (String × α)) : Prop := (l.map Prod.fst).Nodup

instance (l : List (String × α)) : Decidable (nodupKeys l) :=
  inferInstanceAs (Decidable (l.map Prod.fst).Nodup)

theorem lookupSnap_insertSnap_self (k : String) (v : α) (l : List (String × α)) :
    lookupSnap k (insertSnap k v l) = some v := by
  induction l with
  | nil => simp [insertSnap, lookupSnap]
  | cons p l ih =>
      obtain ⟨k₂, v₂⟩ := p
      by_cases h : k₂ = k
      · simp [insertSnap, h, lookupSnap]
      · simp [insertSnap, h, lookupSnap, ih]

theorem lookupSnap_insertSnap_ne (k₀ k : String) (h : k₀ ≠ k) (v : α)
    (l : List (String × α)) :
    lookupSnap k₀ (insertSnap k v l) = lookupSnap k₀ l := by
  induction l with
  | nil =>
      simp [insertSnap, lookupSnap, Ne.symm h]
  | cons p l ih =>
      obtain ⟨k₂, v₂⟩ := p
      by_cases hk : k₂ = k
      · subst hk
        simp [insertSnap, lookupSnap, Ne.symm h]
      · simp [insertSnap, hk, lookupSnap, ih]

theorem mem_keys_insertSnap (x k : String) (v : α) (l : List (String × α)) :
    x ∈ (insertSnap k v l).map Prod.fst ↔ x = k ∨ x ∈ l.map Prod.fst := by
  induction l with
  | nil => simp [insertSnap]
  | cons p l ih =>
      obtain ⟨k₂, v₂⟩ := p
      by_cases h : k₂ = k
      · subst h
        have hrw : insertSnap k₂ v ((k₂, v₂) :: l) = (k₂, v) :: l := by
          simp [insertSnap]
        rw [hrw]
        simp only [List.map_cons, List.mem_cons]
        tauto
      · have hrw : insertSnap k v ((k₂, v₂) :: l) = (k₂, v₂) :: insertSnap k v l := by
          simp [insertSnap, h]
        rw [hrw]
        simp only [List.map_cons, List.mem_cons, ih]
        tauto

theorem nodupKeys_insertSnap (k : String) (v : α) (l : List (String × α))
    (h : nodupKeys l) : nodupKeys (insertSnap k v l) := by
  induction l with
  | nil => simp [insertSnap, nodupKeys]
  | cons p l ih =>
      obtain ⟨k₂, v₂⟩ := p
      rw [nodupKeys, List.map_cons, List.nodup_cons] at h
      by_cases hk : k₂ = k
      · subst hk
        simpa [insertSnap, nodupKeys] using h
      · have h₂ : k₂ ∉ (insertSnap k v l).map Prod.fst := by
          rw [mem_keys_insertSnap]
          rintro (rfl | hm)
          · exact hk rfl
          · exact h.1 hm
        have := ih h.2
        simpa [insertSnap, hk, nodupKeys, List.nodup_cons, h₂] using this

theorem lookupSnap_eq_of_mem (k : String) (v : α) (l : List (String × α))
    (h : nodupKeys l) (hm : (k, v) ∈ l) : lookupSnap k l = some v := by
  induction l with
  | nil => cases hm
  | cons p l ih =>
      obtain ⟨k₂, v₂⟩ := p
      rw [nodupKeys, List.map_cons, List.nodup_cons] at h
      rcases List.mem_cons.mp hm with heq | htl
      · injection heq.symm with he hv
        subst he
        subst hv
        simp [lookupSnap]
      · have hk : k ∈ l.map Prod.fst := List.mem_map.mpr ⟨(k, v), htl, rfl⟩
        have hne : k₂ ≠ k := fun heq => h.1 (heq ▸ hk)
        simp [lookupSnap, hne, ih h.2 htl]

/-! ### Working list lemmas -/

theorem mem_workingList {β : Type} {tag : String → α → β}
    {store : List (String × List α)} {n : ℕ} {x : β} :
    x ∈ workingList tag store n ↔ ∃ p ∈ store, x ∈ (p.2.map (tag p.1)).take n := by
  rw [workingList, List.mem_flatten]
  constructor
  · rintro ⟨l, hl, hx⟩
    rcases List.mem_map.mp hl with ⟨p, hp, rfl⟩
    exact ⟨p, hp, hx⟩
  · rintro ⟨p, hp, hx⟩
    exact ⟨(p.2.map (tag p.1)).take n, List.mem_map_of_mem _ hp, hx⟩

theorem exists_of_mem_workingList {β : Type} {tag : String → α → β}
    {store : List (String × List α)} {n : ℕ} {x : β}
    (h : x ∈ workingList tag store n) :
    ∃ e ls b, (e, ls) ∈ store ∧ b ∈ ls ∧ x = tag e b := by
  rcases mem_workingList.mp h with ⟨p, hp, hx⟩
  have hx₂ : x ∈ p.2.map (tag p.1) := (List.take_sublist _ _).mem hx
  rcases List.mem_map.mp hx₂ with ⟨b, hb, rfl⟩
  exact ⟨p.1, p.2, b, hp, hb, rfl⟩

theorem filter_workingList {β : Type} (tag : String → α → β) (ex : β → String)
    (hx : ∀ e b, ex (tag e b) = e) (store : List (String × List α)) (n : ℕ)
    (hnd : nodupKeys store) (e : String) (ls : List α) (hmem : (e, ls) ∈ store) :
    (workingList tag store n).filter (fun x => ex x == e) = (ls.map (tag e)).take n := by
  induction store with
  | nil => cases hmem
  | cons p rest ih =>
      obtain ⟨e₂, ls₂⟩ := p
      rw [nodupKeys, List.map_cons, List.nodup_cons] at hnd
      have hblock : workingList tag ((e₂, ls₂) :: rest) n =
          (ls₂.map (tag e₂)).take n ++ workingList tag rest n := by
        simp [workingList]
      rw [hblock, List.filter_append]
      rcases List.mem_cons.mp hmem with heq | htl
      · injection heq.symm with he hl
        subst he
        subst hl
        have h₁ : ((ls₂.map (tag e₂)).take n).filter (fun x => ex x == e₂) =
            (ls₂.map (tag e₂)).take n := by
          apply List.filter_eq_self.mpr
          intro x hxm
          rcases List.mem_map.mp ((List.take_sublist _ _).mem hxm) with ⟨b, hb, rfl⟩
          simp [hx]
        have h₂ : (workingList tag rest n).filter (fun x => ex x == e₂) = [] := by
          apply List.filter_eq_nil_iff.mpr
          intro x hxm
          rcases exists_of_mem_workingList hxm with ⟨e₃, ls₃, b, hmem₃, hb, rfl⟩
          have h₃ : e₃ ∈ rest.map Prod.fst := List.mem_map_of_mem Prod.fst hmem₃
          simp only [hx, beq_iff_eq]
          rintro rfl
          exact hnd.1 h₃
        rw [h₁, h₂, List.append_nil]
      · have hke : e ∈ rest.map Prod.fst := List.mem_map.mpr ⟨(e, ls), htl, rfl⟩
        have hne : e₂ ≠ e := fun heq₂ => hnd.1 (heq₂ ▸ hke)
        have h₁ : ((ls₂.map (tag e₂)).take n).filter (fun x => ex x == e) = [] := by
          apply List.filter_eq_nil_iff.mpr
          intro x hxm
          rcases List.mem_map.mp ((List.take_sublist _ _).mem hxm) with ⟨b, hb, rfl⟩
          simp only [hx, beq_iff_eq]
          exact hne
        rw [h₁, ih hnd.2 htl, List.nil_append]

/-! ### The update operation: unfolding equations and per-call facts -/

theorem update_bids_fst (book : MergedOrderBook) (e : String) (bids : List Bid) :
    (book.update_bids e bids).1 =
      ((workingList ExchangeBid.of (insertSnap e bids book.latest_bids)
        book.top_n).insertionSort bidOrd).take book.top_n := rfl

theorem update_asks_fst (book : MergedOrderBook) (e : String) (asks : List Ask) :
    (book.update_asks e asks).1 =
      ((workingList ExchangeAsk.of (insertSnap e asks book.latest_asks)
        book.top_n).insertionSort askOrd).take book.top_n := rfl

theorem update_fst_asks (book : MergedOrderBook) (u : OrderBookUpdate) :
    (book.update u).1.asks = (book.update_asks u.exchange u.asks).1 := rfl

theorem update_fst_bids (book : MergedOrderBook) (u : OrderBookUpdate) :
    (book.update u).1.bids =
      ((book.update_asks u.exchange u.asks).2.update_bids u.exchange u.bids).1 := rfl

theorem update_fst_spread (book : MergedOrderBook) (u : OrderBookUpdate) :
    (book.update u).1.spread =
      (book.update u).1.asks.head?.bind fun ask =>
        (book.update u).1.bids.head?.map fun bid => ask.price - bid.price := rfl

theorem update_snd_latest_bids (book : MergedOrderBook) (u : OrderBookUpdate) :
    (book.update u).2.latest_bids = insertSnap u.exchange u.bids book.latest_bids := rfl

theorem update_snd_latest_asks (book : MergedOrderBook) (u : OrderBookUpdate) :
    (book.update u).2.latest_asks = insertSnap u.exchange u.asks book.latest_asks := rfl

theorem update_snd_top_n (book : MergedOrderBook) (u : OrderBookUpdate) :
    (book.update u).2.top_n = book.top_n := rfl

theorem sorted_take_bids (l : List ExchangeBid) (n : ℕ) :
    ((l.insertionSort bidOrd).take n).Pairwise (fun a b => b.price ≤ a.price) :=
  List.Pairwise.sublist (List.take_sublist n _) (List.sorted_insertionSort bidOrd l)

theorem sorted_take_asks (l : List ExchangeAsk) (n : ℕ) :
    ((l.insertionSort askOrd).take n).Pairwise (fun a b => a.price ≤ b.price) :=
  List.Pairwise.sublist (List.take_sublist n _) (List.sorted_insertionSort askOrd l)

theorem update_result_props (book : MergedOrderBook) (u : OrderBookUpdate) :
    (book.update u).1.bids.Pairwise (fun a b => b.price ≤ a.price)
    ∧ (book.update u).1.asks.Pairwise (fun a b => a.price ≤ b.price)
    ∧ (book.update u).1.bids.length ≤ book.top_n
    ∧ (book.update u).1.asks.length ≤ book.top_n := by
  refine ⟨?_, ?_, ?_, ?_⟩
  · rw [update_fst_bids, update_bids_fst]
    exact sorted_take_bids _ _
  · rw [update_fst_asks, update_asks_fst]
    exact sorted_take_asks _ _
  · rw [update_fst_bids, update_bids_fst]
    exact List.length_take_le _ _
  · rw [update_fst_asks, update_asks_fst]
    exact List.length_take_le _ _

theorem mem_runUpdates_props (us : List OrderBookUpdate) :
    ∀ (book : MergedOrderBook) (r : UpdateResult), r ∈ runUpdates book us →
      r.bids.Pairwise (fun a b => b.price ≤ a.price)
      ∧ r.asks.Pairwise (fun a b => a.price ≤ b.price)
      ∧ r.bids.length ≤ book.top_n
      ∧ r.asks.length ≤ book.top_n := by
  induction us with
  | nil =>
      intro book r h
      cases h
  | cons u us ih =>
      intro book r h
      rcases List.mem_cons.mp h with rfl | htl
      · exact update_result_props book u
      · have := ih (book.update u).2 r htl
        rwa [update_snd_top_n] at this

/-! ### Rounding lemmas -/

theorem roundHalfEven_intCast (m : ℤ) : roundHalfEven (m : ℚ) = m := by
  rw [roundHalfEven, Int.floor_intCast]
  norm_num

theorem roundDp_idem (q : ℚ) (dp : ℕ) : roundDp (roundDp q dp) dp = roundDp q dp := by
  rw [roundDp, roundDp]
  have h10 : ((10 : ℚ) ^ dp) ≠ 0 := by positivity
  rw [div_mul_cancel₀ _ h10, roundHalfEven_intCast]

theorem abs_roundHalfEven_sub (q : ℚ) : |((roundHalfEven q : ℤ) : ℚ) - q| ≤ 1/2 := by
  have h₁ : ((⌊q⌋ : ℤ) : ℚ) ≤ q := Int.floor_le q
  have h₂ : q < ((⌊q⌋ : ℤ) : ℚ) + 1 := Int.lt_floor_add_one q
  rw [roundHalfEven]
  split_ifs with ha hb hc
  · rw [abs_sub_comm, abs_of_nonneg (by linarith)]
    linarith
  · rw [abs_of_nonneg (by push_cast; linarith)]
    push_cast
    linarith
  · rw [abs_sub_comm, abs_of_nonneg (by linarith)]
    linarith
  · rw [abs_of_nonneg (by push_cast; linarith)]
    push_cast
    linarith

theorem roundHalfEven_tie_even (q : ℚ) (h : q - (⌊q⌋ : ℚ) = 1/2) :
    roundHalfEven q % 2 = 0 := by
  rw [roundHalfEven]
  have hlt : ¬(q - (⌊q⌋ : ℚ) < 1/2) := by rw [h]; exact lt_irrefl _
  have hgt : ¬(1/2 < q - (⌊q⌋ : ℚ)) := by rw [h]; exact lt_irrefl _
  rw [if_neg hlt, if_neg hgt]
  by_cases hm : ⌊q⌋ % 2 = 0
  · rw [if_pos hm]
    exact hm
  · rw [if_neg hm]
    omega

/-! ### Parsing lemmas -/

theorem mapExcept_ok_forall₂ (f : α → Except ε β) (l : List α) (r : List β)
    (h : mapExcept f l = .ok r) : List.Forall₂ (fun x y => f x = .ok y) l r := by
  induction l generalizing r with
  | nil =>
      rw [mapExcept] at h
      cases h
      exact List.Forall₂.nil
  | cons x l ih =>
      rw [mapExcept] at h
      cases hf : f x with
      | error e => rw [hf] at h; cases h
      | ok y =>
          rw [hf] at h
          cases hl : mapExcept f l with
          | error e => rw [hl] at h; cases h
          | ok ys =>
              rw [hl] at h
              cases h
              exact List.Forall₂.cons hf (ih ys hl)

theorem mapExcept_ok_iff (f : α → Except ε β) (l : List α) :
    (∃ r, mapExcept f l = .ok r) ↔ ∀ x ∈ l, ∃ y, f x = .ok y := by
  induction l with
  | nil =>
      simp [mapExcept]
  | cons x l ih =>
      rw [mapExcept]
      constructor
      · rintro ⟨r, hr⟩
        cases hf : f x with
        | error e => rw [hf] at hr; cases hr
        | ok y =>
            rw [hf] at hr
            cases hl : mapExcept f l with
            | error e => rw [hl] at hr; cases hr
            | ok ys =>
                intro p hp
                rcases List.mem_cons.mp hp with rfl | hp₂
                · exact ⟨y, hf⟩
                · exact (ih.mp ⟨ys, hl⟩) p hp₂
      · intro hall
        rcases hall x (List.mem_cons_self x l) with ⟨y, hy⟩
        rcases ih.mpr (fun p hp => hall p (List.mem_cons_of_mem x hp)) with ⟨ys, hys⟩
        exact ⟨y :: ys, by rw [hy, hys]; rfl⟩

theorem forall₂_exists_of_mem_left {α β : Type} {R : α → β → Prop} {l : List α}
    {r : List β} (h : List.Forall₂ R l r) {x : α} (hx : x ∈ l) : ∃ y ∈ r, R x y := by
  induction h with
  | nil => cases hx
  | cons hR hF ih =>
      rcases List.mem_cons.mp hx with rfl | hx₂
      · exact ⟨_, List.mem_cons_self _ _, hR⟩
      · rcases ih hx₂ with ⟨y, hy, hRy⟩
        exact ⟨y, List.mem_cons_of_mem _ hy, hRy⟩

theorem forall₂_exists_of_mem_right {α β : Type} {R : α → β → Prop} {l : List α}
    {r : List β} (h : List.Forall₂ R l r) {y : β} (hy : y ∈ r) : ∃ x ∈ l, R x y := by
  induction h with
  | nil => cases hy
  | cons hR hF ih =>
      rcases List.mem_cons.mp hy with rfl | hy₂
      · exact ⟨_, List.mem_cons_self _ _, hR⟩
      · rcases ih hy₂ with ⟨x, hx, hRx⟩
        exact ⟨x, List.mem_cons_of_mem _ hx, hRx⟩

theorem parseBid_ok (p : String × String) (b : Bid) (h : parseBid p = .ok b) :
    Decimal.from_str p.1 = .ok b.price ∧ Decimal.from_str p.2 = .ok b.amount := by
  rw [parseBid] at h
  cases h₁ : Decimal.from_str p.1 with
  | error e => rw [h₁] at h; cases h
  | ok q₁ =>
      rw [h₁] at h
      cases h₂ : Decimal.from_str p.2 with
      | error e => rw [h₂] at h; cases h
      | ok q₂ =>
          rw [h₂] at h
          cases h
          exact ⟨rfl, rfl⟩

theorem parseAsk_ok (p : String × String) (a : Ask) (h : parseAsk p = .ok a) :
    Decimal.from_str p.1 = .ok a.price ∧ Decimal.from_str p.2 = .ok a.amount := by
  rw [parseAsk] at h
  cases h₁ : Decimal.from_str p.1 with
  | error e => rw [h₁] at h; cases h
  | ok q₁ =>
      rw [h₁] at h
      cases h₂ : Decimal.from_str p.2 with
      | error e => rw [h₂] at h; cases h
      | ok q₂ =>
          rw [h₂] at h
          cases h
          exact ⟨rfl, rfl⟩

theorem parseBid_ok_iff (p : String × String) :
    (∃ b, parseBid p = .ok b) ↔
      (∃ q, Decimal.from_str p.1 = .ok q) ∧ (∃ q, Decimal.from_str p.2 = .ok q) := by
  constructor
  · rintro ⟨b, hb⟩
    rcases parseBid_ok p b hb with ⟨h₁, h₂⟩
    exact ⟨⟨b.price, h₁⟩, ⟨b.amount, h₂⟩⟩
  · rintro ⟨⟨q₁, h₁⟩, ⟨q₂, h₂⟩⟩
    exact ⟨{ price := q₁, amount := q₂ }, by rw [parseBid, h₁, h₂]; rfl⟩

theorem parseAsk_ok_iff (p : String × String) :
    (∃ a, parseAsk p = .ok a) ↔
      (∃ q, Decimal.from_str p.1 = .ok q) ∧ (∃ q, Decimal.from_str p.2 = .ok q) := by
  constructor
  · rintro ⟨a, ha⟩
    rcases parseAsk_ok p a ha with ⟨h₁, h₂⟩
    exact ⟨⟨a.price, h₁⟩, ⟨a.amount, h₂⟩⟩
  · rintro ⟨⟨q₁, h₁⟩, ⟨q₂, h₂⟩⟩
    exact ⟨{ price := q₁, amount := q₂ }, by rw [parseAsk, h₁, h₂]; rfl⟩

theorem parse_data_ok (bids aks : List (String × String)) (e : String)
    (u : OrderBookUpdate) (h : parse_data bids aks e = .ok u) :
    u.exchange = e
    ∧ List.Forall₂ (fun p (b : Bid) =>
        Decimal.from_str p.1 = .ok b.price ∧ Decimal.from_str p.2 = .ok b.amount) bids u.bids
    ∧ List.Forall₂ (fun p (a : Ask) =>
        Decimal.from_str p.1 = .ok a.price ∧ Decimal.from_str p.2 = .ok a.amount) aks u.asks := by
  rw [parse_data] at h
  cases hb : mapExcept parseBid bids with
  | error e₂ => rw [hb] at h; cases h
  | ok bs =>
      rw [hb] at h
      cases ha : mapExcept parseAsk aks with
      | error e₂ => rw [ha] at h; cases h
      | ok as₂ =>
          rw [ha] at h
          cases h
          refine ⟨rfl, ?_, ?_⟩
          · exact (mapExcept_ok_forall₂ _ _ _ hb).imp (fun p b hpb => parseBid_ok p b hpb)
          · exact (mapExcept_ok_forall₂ _ _ _ ha).imp (fun p a hpa => parseAsk_ok p a hpa)

theorem parse_data_ok_iff (bids aks : List (String × String)) (e : String) :
    (∃ u, parse_data bids aks e = .ok u) ↔
      ∀ p ∈ bids ++ aks,
        (∃ q, Decimal.from_str p.1 = .ok q) ∧ (∃ q, Decimal.from_str p.2 = .ok q) := by
  constructor
  · rintro ⟨u, hu⟩ p hp
    rcases parse_data_ok bids aks e u hu with ⟨-, hfb, hfa⟩
    rcases List.mem_append.mp hp with hpb | hpa
    · rcases forall₂_exists_of_mem_left hfb hpb with ⟨b, -, h₁, h₂⟩
      exact ⟨⟨b.price, h₁⟩, ⟨b.amount, h₂⟩⟩
    · rcases forall₂_exists_of_mem_left hfa hpa with ⟨a, -, h₁, h₂⟩
      exact ⟨⟨a.price, h₁⟩, ⟨a.amount, h₂⟩⟩
  · intro hall
    have h₁ : ∃ bs, mapExcept parseBid bids = .ok bs :=
      (mapExcept_ok_iff parseBid bids).mpr (fun p hp =>
        (parseBid_ok_iff p).mpr (hall p (List.mem_append_left _ hp)))
    have h₂ : ∃ as₂, mapExcept parseAsk aks = .ok as₂ :=
      (mapExcept_ok_iff parseAsk aks).mpr (fun p hp =>
        (parseAsk_ok_iff p).mpr (hall p (List.mem_append_right _ hp)))
    rcases h₁ with ⟨bs, hbs⟩
    rcases h₂ with ⟨as₂, has⟩
    exact ⟨{ exchange := e, bids := bs, asks := as₂ },
      by rw [parse_data, hbs, has]; rfl⟩

theorem parseUnsigned_nonneg (body : List Char) (q : ℚ)
    (h : parseUnsigned body = .ok q) : 0 ≤ q := by
  rw [parseUnsigned] at h
  split at h
  · cases h
  · split at h
    · cases h
      positivity
    · split at h
      · cases h
        positivity
      · cases h
    · cases h

theorem from_str_nonneg (s : String) (q : ℚ) (h : Decimal.from_str s = .ok q)
    (hm : '-' ∉ s.data) : 0 ≤ q := by
  rw [Decimal.from_str] at h
  cases hd : s.data with
  | nil => rw [hd] at h; rw [fromChars] at h; cases h
  | cons c cs =>
      rw [hd] at h
      rw [hd] at hm
      have hc : ¬(c = '-') := fun hh => hm (hh ▸ List.mem_cons_self _ _)
      rw [fromChars, if_neg hc] at h
      by_cases hp : c = '+'
      · rw [if_pos hp] at h
        exact parseUnsigned_nonneg _ _ h
      · rw [if_neg hp] at h
        exact parseUnsigned_nonneg _ _ h

/-! ### Claims -/

/-- C1: for every sequence of calls to MergedOrderBook::update (any
sources, any top_n = N), the result of each call has its bid list sorted
non-increasing by price, its ask list sorted non-decreasing by price,
and both lists of length at most N. -/
theorem claim_C1_merge_sorted_bounded (n : ℕ) (us : List OrderBookUpdate)
    (r : UpdateResult) (hr : r ∈ runUpdates (MergedOrderBook.new n) us) :
    r.bids.Pairwise (fun a b => b.price ≤ a.price)
    ∧ r.asks.Pairwise (fun a b => a.price ≤ b.price)
    ∧ r.bids.length ≤ n ∧ r.asks.length ≤ n :=
  mem_runUpdates_props us (MergedOrderBook.new n) r hr

unseal Rat.mul Rat.inv Rat.add Rat.sub Rat.ofScientific in
/-- Witness for C1 at a concrete one-update sequence. -/
theorem claim_C1_witness :
    (((MergedOrderBook.new 2).update ⟨"x", [⟨2, 1⟩], [⟨3, 1⟩]⟩).1.bids.Pairwise
      (fun a b => b.price ≤ a.price))
    ∧ (((MergedOrderBook.new 2).update ⟨"x", [⟨2, 1⟩], [⟨3, 1⟩]⟩).1.asks.Pairwise
      (fun a b => a.price ≤ b.price))
    ∧ ((MergedOrderBook.new 2).update ⟨"x", [⟨2, 1⟩], [⟨3, 1⟩]⟩).1.bids.length ≤ 2
    ∧ ((MergedOrderBook.new 2).update ⟨"x", [⟨2, 1⟩], [⟨3, 1⟩]⟩).1.asks.length ≤ 2 :=
  claim_C1_merge_sorted_bounded 2 [⟨"x", [⟨2, 1⟩], [⟨3, 1⟩]⟩] _ (by
    simp [runUpdates])

/-- C2: the spread of the result of MergedOrderBook::update is the first
ask price minus the first bid price (exact decimal subtraction, crossed
books passed through as-is) when both returned lists are non-empty, and
none when either is empty. -/
theorem claim_C2_spread (book : MergedOrderBook) (u : OrderBookUpdate) :
    (((book.update u).1.asks = [] ∨ (book.update u).1.bids = []) →
      (book.update u).1.spread = none)
    ∧ ∀ a aks b bds, (book.update u).1.asks = a :: aks →
        (book.update u).1.bids = b :: bds →
        (book.update u).1.spread = some (a.price - b.price) := by
  constructor
  · intro h
    rw [update_fst_spread]
    rcases h with h | h
    · rw [h]
      rfl
    · rw [h]
      cases hh : (book.update u).1.asks.head? <;> rfl
  · intro a aks b bds ha hb
    rw [update_fst_spread, ha, hb]
    rfl

unseal Rat.mul Rat.inv Rat.add Rat.sub Rat.ofScientific in
/-- Witness for C2 on a crossed book: best ask 100.5 below best bid 101,
spread reported as the negative value -0.5 without correction. -/
theorem claim_C2_witness :
    ((MergedOrderBook.new 3).update ⟨"x", [⟨101, 1⟩], [⟨100.5, 1⟩]⟩).1.spread
      = some (-(1/2) : ℚ) := by
  have h := (claim_C2_spread (MergedOrderBook.new 3)
      ⟨"x", [⟨101, 1⟩], [⟨100.5, 1⟩]⟩).2
    ⟨"x", 100.5, 1⟩ [] ⟨"x", 101, 1⟩ [] (by decide) (by decide)
  rw [h, show (100.5 : ℚ) - 101 = -(1/2) from by norm_num]

/-- C3: update replaces the calling source's stored bid and ask lists
wholesale, leaves every other source's stored lists unchanged, and every
entry of the returned result is drawn from the currently stored list of
its tagged source. -/
theorem claim_C3_replacement (book : MergedOrderBook) (u : OrderBookUpdate)
    (hb : nodupKeys book.latest_bids) (ha : nodupKeys book.latest_asks) :
    lookupSnap u.exchange (book.update u).2.latest_bids = some u.bids
    ∧ lookupSnap u.exchange (book.update u).2.latest_asks = some u.asks
    ∧ (∀ e, e ≠ u.exchange →
        lookupSnap e (book.update u).2.latest_bids = lookupSnap e book.latest_bids
        ∧ lookupSnap e (book.update u).2.latest_asks = lookupSnap e book.latest_asks)
    ∧ (∀ x ∈ (book.update u).1.bids,
        ∃ ls, lookupSnap x.exchange (book.update u).2.latest_bids = some ls
          ∧ ∃ b ∈ ls, x.price = b.price ∧ x.amount = b.amount)
    ∧ (∀ x ∈ (book.update u).1.asks,
        ∃ ls, lookupSnap x.exchange (book.update u).2.latest_asks = some ls
          ∧ ∃ a ∈ ls, x.price = a.price ∧ x.amount = a.amount) := by
  refine ⟨?_, ?_, ?_, ?_, ?_⟩
  · rw [update_snd_latest_bids]
    exact lookupSnap_insertSnap_self _ _ _
  · rw [update_snd_latest_asks]
    exact lookupSnap_insertSnap_self _ _ _
  · intro e he
    rw [update_snd_latest_bids, update_snd_latest_asks]
    exact ⟨lookupSnap_insertSnap_ne e u.exchange he _ _,
      lookupSnap_insertSnap_ne e u.exchange he _ _⟩
  · intro x hx
    rw [update_fst_bids, update_bids_fst] at hx
    have hx₂ : x ∈ workingList ExchangeBid.of
        (insertSnap u.exchange u.bids book.latest_bids) book.top_n := by
      have := (List.take_sublist _ _).mem hx
      exact (List.mem_insertionSort bidOrd).mp this
    rcases exists_of_mem_workingList hx₂ with ⟨e, ls, b, hmem, hbmem, rfl⟩
    refine ⟨ls, ?_, b, hbmem, rfl, rfl⟩
    rw [update_snd_latest_bids]
    exact lookupSnap_eq_of_mem e ls _ (nodupKeys_insertSnap _ _ _ hb) hmem
  · intro x hx
    rw [update_fst_asks, update_asks_fst] at hx
    have hx₂ : x ∈ workingList ExchangeAsk.of
        (insertSnap u.exchange u.asks book.latest_asks) book.top_n := by
      have := (List.take_sublist _ _).mem hx
      exact (List.mem_insertionSort askOrd).mp this
    rcases exists_of_mem_workingList hx₂ with ⟨e, ls, a, hmem, hamem, rfl⟩
    refine ⟨ls, ?_, a, hamem, rfl, rfl⟩
    rw [update_snd_latest_asks]
    exact lookupSnap_eq_of_mem e ls _ (nodupKeys_insertSnap _ _ _ ha) hmem

unseal Rat.mul Rat.inv Rat.add Rat.sub Rat.ofScientific in
/-- Witness for C3: after a second update from the same source, the
stored bid list of that source is exactly the newly delivered list. -/
theorem claim_C3_witness :
    lookupSnap "x"
      ((MergedOrderBook.mk [("x", [⟨5, 1⟩])] [] 3).update
        ⟨"x", [⟨7, 2⟩], []⟩).2.latest_bids = some [⟨7, 2⟩] :=
  (claim_C3_replacement (MergedOrderBook.mk [("x", [⟨5, 1⟩])] [] 3)
    ⟨"x", [⟨7, 2⟩], []⟩ (by decide) (by decide)).1

/-- C4: on every call to update, each known source contributes at most
its first top_n stored entries per side to the concatenated working list
that is then sorted and truncated. -/
theorem claim_C4_per_source_cap (book : MergedOrderBook) (u : OrderBookUpdate)
    (hb : nodupKeys book.latest_bids) (ha : nodupKeys book.latest_asks) :
    (∀ e ls, (e, ls) ∈ insertSnap u.exchange u.bids book.latest_bids →
      (workingList ExchangeBid.of (insertSnap u.exchange u.bids book.latest_bids)
          book.top_n).filter (fun x => x.exchange == e)
        = (ls.take book.top_n).map (ExchangeBid.of e)
      ∧ ((workingList ExchangeBid.of (insertSnap u.exchange u.bids book.latest_bids)
          book.top_n).filter (fun x => x.exchange == e)).length ≤ book.top_n)
    ∧ (∀ e ls, (e, ls) ∈ insertSnap u.exchange u.asks book.latest_asks →
      (workingList ExchangeAsk.of (insertSnap u.exchange u.asks book.latest_asks)
          book.top_n).filter (fun x => x.exchange == e)
        = (ls.take book.top_n).map (ExchangeAsk.of e)
      ∧ ((workingList ExchangeAsk.of (insertSnap u.exchange u.asks book.latest_asks)
          book.top_n).filter (fun x => x.exchange == e)).length ≤ book.top_n) := by
  constructor
  · intro e ls hmem
    have heq := filter_workingList ExchangeBid.of ExchangeBid.exchange
      (fun _ _ => rfl) _ book.top_n (nodupKeys_insertSnap _ _ _ hb) e ls hmem
    rw [← List.map_take] at heq
    exact ⟨heq, by rw [heq, List.length_map, List.length_take]; omega⟩
  · intro e ls hmem
    have heq := filter_workingList ExchangeAsk.of ExchangeAsk.exchange
      (fun _ _ => rfl) _ book.top_n (nodupKeys_insertSnap _ _ _ ha) e ls hmem
    rw [← List.map_take] at heq
    exact ⟨heq, by rw [heq, List.length_map, List.length_take]; omega⟩

unseal Rat.mul Rat.inv Rat.add Rat.sub Rat.ofScientific in
/-- Witness for C4: a source holding three stored bids contributes only
its first two when top_n is two. -/
theorem claim_C4_witness :
    (workingList ExchangeBid.of
        (insertSnap "y" [⟨9, 1⟩] [("x", [⟨5, 1⟩, ⟨4, 1⟩, ⟨3, 1⟩])]) 2).filter
        (fun x => x.exchange == "x")
      = ([⟨5, 1⟩, ⟨4, 1⟩, ⟨3, 1⟩].take 2).map (ExchangeBid.of "x")
    ∧ ((workingList ExchangeBid.of
        (insertSnap "y" [⟨9, 1⟩] [("x", [⟨5, 1⟩, ⟨4, 1⟩, ⟨3, 1⟩])]) 2).filter
        (fun x => x.exchange == "x")).length ≤ 2 :=
  (claim_C4_per_source_cap (MergedOrderBook.mk [("x", [⟨5, 1⟩, ⟨4, 1⟩, ⟨3, 1⟩])] [] 2)
    ⟨"y", [⟨9, 1⟩], []⟩ (by decide) (by decide)).1 "x"
    [⟨5, 1⟩, ⟨4, 1⟩, ⟨3, 1⟩] (by decide)

unseal Rat.mul Rat.inv Rat.add Rat.sub Rat.ofScientific in
/-- C5 counterexample: rounding the spread value one half to zero
fractional digits yields zero (ties to even), not the one that standard
round-half-up (ties away from zero) would produce. -/
theorem claim_C5_counterexample :
    (UpdateResult.normalize { asks := [], bids := [], spread := some (1/2) } 2 4 0).spread
      = some (0 : ℚ)
    ∧ (0 : ℚ) ≠ 1 := by
  constructor
  · decide
  · norm_num

/-- C5 amended: UpdateResult::normalize rounds each price, amount and
spread value to the given number of fractional digits by rounding to the
nearest representable value with ties to the even neighbour (bankers
rounding, the rust_decimal round_dp default), not ties upward. -/
theorem claim_C5_rounding_half_even (r : UpdateResult) (p a s : ℕ) :
    ((UpdateResult.normalize r p a s).spread = r.spread.map (fun v => roundDp v s))
    ∧ ((UpdateResult.normalize r p a s).asks = r.asks.map (fun x =>
        { x with price := roundDp x.price p, amount := roundDp x.amount a }))
    ∧ ((UpdateResult.normalize r p a s).bids = r.bids.map (fun x =>
        { x with price := roundDp x.price p, amount := roundDp x.amount a }))
    ∧ ∀ (q : ℚ) (dp : ℕ), ∃ m : ℤ,
        roundDp q dp = (m : ℚ) / 10 ^ dp
        ∧ |(m : ℚ) - q * 10 ^ dp| ≤ 1/2
        ∧ (q * 10 ^ dp - (⌊q * 10 ^ dp⌋ : ℚ) = 1/2 → m % 2 = 0) := by
  refine ⟨rfl, rfl, rfl, ?_⟩
  intro q dp
  exact ⟨roundHalfEven (q * 10 ^ dp), rfl,
    abs_roundHalfEven_sub (q * 10 ^ dp),
    roundHalfEven_tie_even (q * 10 ^ dp)⟩

/-- C6: UpdateResult::normalize is idempotent: applying it twice with
the same decimal-place counts is the same as applying it once. -/
theorem claim_C6_normalize_idempotent (r : UpdateResult) (p a s : ℕ) :
    UpdateResult.normalize (UpdateResult.normalize r p a s) p a s
      = UpdateResult.normalize r p a s := by
  rw [UpdateResult.normalize, UpdateResult.normalize]
  simp only [List.map_map, Option.map_map, UpdateResult.mk.injEq]
  refine ⟨?_, ?_, ?_⟩
  · apply List.map_congr_left
    intro x hx
    simp [Function.comp, roundDp_idem]
  · apply List.map_congr_left
    intro x hx
    simp [Function.comp, roundDp_idem]
  · cases r.spread with
    | none => rfl
    | some v => simp [Function.comp, roundDp_idem]

unseal Rat.mul Rat.inv Rat.add Rat.sub Rat.ofScientific in
/-- C7: with top_n three, after source x delivers three bids the merged
bids are exactly those three, descending, tagged x; a following update
from source y with two bids yields the merged bids 101 from y, 100.5
from x and 100.2 from y, displacing the bids at 100 and 99.5 of x. -/
theorem claim_C7_scenario :
    (((MergedOrderBook.new 3).update
        ⟨"x", [⟨100.5, 1.5⟩, ⟨100.0, 2.0⟩, ⟨99.5, 1.0⟩], []⟩).1.bids
      = [⟨"x", 100.5, 1.5⟩, ⟨"x", 100.0, 2.0⟩, ⟨"x", 99.5, 1.0⟩])
    ∧ ((((MergedOrderBook.new 3).update
        ⟨"x", [⟨100.5, 1.5⟩, ⟨100.0, 2.0⟩, ⟨99.5, 1.0⟩], []⟩).2.update
          ⟨"y", [⟨101.0, 1.0⟩, ⟨100.2, 2.5⟩], []⟩).1.bids
      = [⟨"y", 101.0, 1.0⟩, ⟨"x", 100.5, 1.5⟩, ⟨"y", 100.2, 2.5⟩]) := by
  decide

/-- C8: parse_data returns an error exactly when some price or amount
string is not a valid decimal, and returns Ok exactly when every string
parses; on error no OrderBookUpdate is produced. -/
theorem claim_C8_parse_data_ok_iff (bids aks : List (String × String)) (e : String) :
    (∃ u, parse_data bids aks e = .ok u) ↔
      ∀ p ∈ bids ++ aks,
        (∃ q, Decimal.from_str p.1 = .ok q) ∧ (∃ q, Decimal.from_str p.2 = .ok q) :=
  parse_data_ok_iff bids aks e

unseal Rat.mul Rat.inv Rat.add Rat.sub Rat.ofScientific in
/-- C9 counterexample: parse_data accepts a negative price string and
stores a Bid whose price is negative, so not every stored PriceLevel is
non-negative. -/
theorem claim_C9_counterexample :
    parse_data [("-1", "2")] [] "x"
      = .ok { exchange := "x", bids := [{ price := -1, amount := 2 }], asks := [] }
    ∧ (-1 : ℚ) < 0 := by
  constructor
  · decide
  · norm_num

/-- C9 amended: parse_data does not enforce non-negativity; the fields
of every produced PriceLevel are exact parses of the input text, and
they are non-negative whenever the input strings carry no minus sign. -/
theorem claim_C9_nonneg_when_unsigned (bids aks : List (String × String))
    (e : String) (u : OrderBookUpdate) (h : parse_data bids aks e = .ok u)
    (hm : ∀ p ∈ bids ++ aks, '-' ∉ p.1.data ∧ '-' ∉ p.2.data) :
    (∀ b ∈ u.bids, 0 ≤ b.price ∧ 0 ≤ b.amount)
    ∧ (∀ a ∈ u.asks, 0 ≤ a.price ∧ 0 ≤ a.amount) := by
  rcases parse_data_ok bids aks e u h with ⟨-, hfb, hfa⟩
  constructor
  · intro b hb
    rcases forall₂_exists_of_mem_right hfb hb with ⟨p, hp, h₁, h₂⟩
    rcases hm p (List.mem_append_left _ hp) with ⟨hm₁, hm₂⟩
    exact ⟨from_str_nonneg _ _ h₁ hm₁, from_str_nonneg _ _ h₂ hm₂⟩
  · intro a ha
    rcases forall₂_exists_of_mem_right hfa ha with ⟨p, hp, h₁, h₂⟩
    rcases hm p (List.mem_append_right _ hp) with ⟨hm₁, hm₂⟩
    exact ⟨from_str_nonneg _ _ h₁ hm₁, from_str_nonneg _ _ h₂ hm₂⟩

unseal Rat.mul Rat.inv Rat.add Rat.sub Rat.ofScientific in
/-- Witness for the amended C9 at a concrete parse without minus signs. -/
theorem claim_C9_witness :
    (0 : ℚ) ≤ (Bid.mk (3/2) 2).price ∧ (0 : ℚ) ≤ (Bid.mk (3/2) 2).amount :=
  (claim_C9_nonneg_when_unsigned [("1.5", "2")] [] "x"
      { exchange := "x", bids := [{ price := 3/2, amount := 2 }], asks := [] }
      (by decide) (by decide)).1
    { price := 3/2, amount := 2 } (by decide)

/-- C10: on success parse_data is a structure-preserving map: the
exchange field is the given argument, the bid and ask lists keep the
length and order of the inputs, and each entry holds the exact decimal
parses of the corresponding input pair. -/
theorem claim_C10_parse_data_map (bids aks : List (String × String)) (e : String)
    (u : OrderBookUpdate) (h : parse_data bids aks e = .ok u) :
    u.exchange = e
    ∧ u.bids.length = bids.length
    ∧ u.asks.length = aks.length
    ∧ (∀ i (hi : i < bids.length) (hi₂ : i < u.bids.length),
        Decimal.from_str (bids.get ⟨i, hi⟩).1 = .ok (u.bids.get ⟨i, hi₂⟩).price
        ∧ Decimal.from_str (bids.get ⟨i, hi⟩).2 = .ok (u.bids.get ⟨i, hi₂⟩).amount)
    ∧ (∀ i (hi : i < aks.length) (hi₂ : i < u.asks.length),
        Decimal.from_str (aks.get ⟨i, hi⟩).1 = .ok (u.asks.get ⟨i, hi₂⟩).price
        ∧ Decimal.from_str (aks.get ⟨i, hi⟩).2 = .ok (u.asks.get ⟨i, hi₂⟩).amount) := by
  rcases parse_data_ok bids aks e u h with ⟨he, hfb, hfa⟩
  refine ⟨he, (List.Forall₂.length_eq hfb).symm, (List.Forall₂.length_eq hfa).symm, ?_, ?_⟩
  · intro i hi hi₂
    exact (List.forall₂_iff_get.mp hfb).2 i hi hi₂
  · intro i hi hi₂
    exact (List.forall₂_iff_get.mp hfa).2 i hi hi₂

unseal Rat.mul Rat.inv Rat.add Rat.sub Rat.ofScientific in
/-- Witness for C10 at a concrete successful parse. -/
theorem claim_C10_witness :
    (OrderBookUpdate.mk "x" [{ price := 3/2, amount := 2 }] []).bids.length
      = [("1.5", "2")].length :=
  (claim_C10_parse_data_map [("1.5", "2")] [] "x"
    { exchange := "x", bids := [{ price := 3/2, amount := 2 }], asks := [] }
    (by decide)).2.1

end OrderBookModel
